import Mathlib

/-!
Verification of the FlatGeobuf packed Hilbert R-tree
(`src/ogr/ogrsf_frmts/flatgeobuf/packedrtree.h`).

Coordinates (C++ `double`) are modelled as rationals: every operation this
development performs on coordinates (comparison, `min`, `max`) is exact on
IEEE-754 doubles, so only the linear order structure matters.  Unsigned
64-bit integers are modelled as `Nat`; no quantity in this development
approaches `2^64` and no claim depends on wrap-around.

The repository contains only the header `packedrtree.h`; the implementation
unit (`packedrtree.cpp`) is not part of the source tree.  Definitions whose
bodies appear in the header (the `NodeItem` record, `width`, `height`,
`sum`, the `calcExtent` and `hilbertSort` templates, `HILBERT_MAX`) are
translated directly from it; definitions whose bodies live only in the
missing implementation unit are modelled from the specification and say so
in their doc comments.
-/

namespace FlatGeobuf

/-- The `NodeItem` record (packedrtree.h lines 35-41): an axis-aligned 2D
box plus an opaque 64-bit back-reference / child-pointer. -/
structure NodeItem where
  minX : ℚ
  minY : ℚ
  maxX : ℚ
  maxY : ℚ
  offset : ℕ
deriving DecidableEq, Repr

instance : Inhabited NodeItem := ⟨⟨0, 0, 0, 0, 0⟩⟩

/-- The four box coordinates of a `NodeItem`, `offset` forgotten.  Used to
state box equalities that deliberately ignore the `offset` field. -/
structure Box where
  minX : ℚ
  minY : ℚ
  maxX : ℚ
  maxY : ℚ
deriving DecidableEq, Repr

/-- Projection of a `NodeItem` onto its box coordinates. -/
def NodeItem.box (n : NodeItem) : Box := ⟨n.minX, n.minY, n.maxX, n.maxY⟩

/-- Component-wise min/max union of two boxes. -/
def Box.union (a b : Box) : Box :=
  ⟨min a.minX b.minX, min a.minY b.minY, max a.maxX b.maxX, max a.maxY b.maxY⟩

/-- The `NodeItem::width` accessor (header line 43): `maxX - minX`. -/
def NodeItem.width (n : NodeItem) : ℚ := n.maxX - n.minX

/-- The `NodeItem::height` accessor (header line 48): `maxY - minY`. -/
def NodeItem.height (n : NodeItem) : ℚ := n.maxY - n.minY

/-- Modelled from the spec: `NodeItem::create` is declared in the header
(line 59) but defined only in the missing implementation unit.  The spec
fixes its `offset` argument and its role as the initial element of the
extent fold; the box fields are modelled as `0`.  No theorem below depends
on their values. -/
def NodeItem.create (offset : ℕ) : NodeItem := ⟨0, 0, 0, 0, offset⟩

/-- Modelled from the spec: `NodeItem::expand` is declared in the header
(line 60) and defined only in the missing implementation unit; spec 4.1
says `expand(other)` / `sum(a,b)` "produce the tightest box containing
both inputs (component-wise min/max)".  Only the receiver's box changes;
its `offset` field is kept. -/
def NodeItem.expand (a r : NodeItem) : NodeItem :=
  { minX := min a.minX r.minX
    minY := min a.minY r.minY
    maxX := max a.maxX r.maxX
    maxY := max a.maxY r.maxY
    offset := a.offset }

/-- The static `NodeItem::sum` (header lines 53-57): copy `a`, expand the
copy by `b`, return the copy. -/
def NodeItem.sum (a b : NodeItem) : NodeItem := a.expand b

/-- Modelled from the spec: `NodeItem::intersects` is declared in the
header (line 61) and defined only in the missing implementation unit; spec
4.1 gives the exact formula `!(other.minX > maxX || other.maxX < minX ||
other.minY > maxY || other.maxY < minY)`. -/
def NodeItem.intersects (a r : NodeItem) : Bool :=
  !(decide (r.minX > a.maxX) || decide (r.maxX < a.minX) ||
    decide (r.minY > a.maxY) || decide (r.maxY < a.minY))

/-- The `Item` wrapper (header lines 65-68). -/
structure Item where
  nodeItem : NodeItem
deriving DecidableEq, Repr

/-- The `SearchResultItem` record (header lines 70-74). -/
structure SearchResultItem where
  offset : ℕ
  index : ℕ
deriving DecidableEq, Repr

/-- The `calcExtent` template (header lines 85-91): `std::accumulate` of
`expand` over the items' boxes, starting from `NodeItem::create(0)`. -/
def calcExtent (items : List Item) : NodeItem :=
  items.foldl (fun a b => a.expand b.nodeItem) (NodeItem.create 0)

/-- The `HILBERT_MAX` constant (header line 83): `(1 << 16) - 1`. -/
def HILBERT_MAX : ℕ := (1 <<< 16) - 1

/-- The `hilbertSort` template (header lines 93-110), parametric in the
Hilbert key function (`hilbert` is declared at header lines 79-80 and
defined only in the missing implementation unit): compute the extent of
the items, then sort with the strict comparator
`hilbert(a, HILBERT_MAX, minX, minY, width, height) > hilbert(b, ...)`.
A comparison sort driven by a strict comparator `cmp` guarantees exactly
that consecutive elements `a, b` of the output satisfy `¬ cmp b a`; the
model sorts with that completed relation. -/
def hilbertSort (hilbert : NodeItem → ℕ → ℚ → ℚ → ℚ → ℚ → ℕ)
    (items : List Item) : List Item :=
  let extent := calcExtent items
  let minX := extent.minX
  let minY := extent.minY
  let width := extent.width
  let height := extent.height
  items.mergeSort (fun a b =>
    !(decide (hilbert b.nodeItem HILBERT_MAX minX minY width height >
              hilbert a.nodeItem HILBERT_MAX minX minY width height)))

/-- Modelled from the spec: the clamp applied to the branching factor by
`PackedRTree::init` (declared header line 128; implementation unit
missing).  Spec 7: values below 2 are silently clamped to 2; spec 9: the
practical upper bound is 65535, from the 16-bit field. -/
def clampNodeSize (nodeSize : ℕ) : ℕ := max 2 (min nodeSize 65535)

/-- Ceiling division `(n + m - 1) / m`, the level-count recurrence step. -/
def ceilDiv (n m : ℕ) : ℕ := (n + m - 1) / m

/-- Modelled from the spec (4.3): per-level node counts, leaf level first:
start from `n`, repeatedly take the ceiling of the previous count divided
by the branching factor, stop at a count of 1 (the root).  The inner
`max 2` is the clamp of spec 7, which also makes the recursion terminate;
all callers pass an already-clamped branching factor, for which
`max 2 ns = ns`. -/
def levelCountsAux (ns : ℕ) (n : ℕ) : List ℕ :=
  if n ≤ 1 then [n] else n :: levelCountsAux ns (ceilDiv n (max 2 ns))
termination_by n
decreasing_by
  simp only [ceilDiv]
  have hm : 2 ≤ max 2 ns := le_max_left _ _
  have hmul := Nat.add_le_mul (a := n) (b := max 2 ns) (by omega) hm
  rw [Nat.div_lt_iff_lt_mul (by omega)]
  omega

theorem levelCountsAux_base {ns n : ℕ} (h : n ≤ 1) : levelCountsAux ns n = [n] := by
  rw [levelCountsAux]
  simp [h]

theorem levelCountsAux_step {ns n : ℕ} (h : ¬n ≤ 1) :
    levelCountsAux ns n = n :: levelCountsAux ns (ceilDiv n (max 2 ns)) := by
  rw [levelCountsAux]
  simp [h]

/-- Modelled from the spec (4.3 and 7): level counts for `numItems`
items, leaf level first.  Zero items yield an empty node array and hence
no levels (spec 7). -/
def levelCounts (numItems nodeSize : ℕ) : List ℕ :=
  if numItems = 0 then [] else levelCountsAux (clampNodeSize nodeSize) numItems

/-- Turn level counts into consecutive `(start, end)` index ranges over
the flat node array, starting at `start`. -/
def boundsFromCounts (start : ℕ) : List ℕ → List (ℕ × ℕ)
  | [] => []
  | c :: cs => (start, start + c) :: boundsFromCounts (start + c) cs

/-- Modelled from the spec: the static `PackedRTree::generateLevelBounds`
(declared header lines 153-154; implementation unit missing).  Spec 3 and
4.3: the list of `(start, end)` index ranges, leaf level first, root level
last. -/
def PackedRTree.generateLevelBounds (numItems nodeSize : ℕ) : List (ℕ × ℕ) :=
  boundsFromCounts 0 (levelCounts numItems nodeSize)

/-- Modelled from the spec: the static `PackedRTree::size` (declared
header line 156; implementation unit missing).  Spec 3 and 4.3: the sum of
all level counts times 40 bytes per node record. -/
def PackedRTree.size (numItems nodeSize : ℕ) : ℕ :=
  (levelCounts numItems nodeSize).sum * 40

/-- The ceiling division of a positive count is positive. -/
theorem ceilDiv_pos {n m : ℕ} (hn : 1 ≤ n) (hm : 1 ≤ m) : 1 ≤ ceilDiv n m := by
  simp only [ceilDiv]
  rw [Nat.le_div_iff_mul_le (by omega)]
  omega

/-- The level-count recurrence strictly decreases above the root. -/
theorem ceilDiv_lt {n m : ℕ} (hn : 2 ≤ n) (hm : 2 ≤ m) : ceilDiv n m < n := by
  simp only [ceilDiv]
  have hmul := Nat.add_le_mul hn hm
  rw [Nat.div_lt_iff_lt_mul (by omega)]
  omega

/-- Union of the boxes of a list of nodes: fold `expand` from the head.
On the empty list it returns the box of `NodeItem.create 0`; every use in
a theorem below applies it to a nonempty run. -/
def leavesUnion : List NodeItem → Box
  | [] => (NodeItem.create 0).box
  | h :: t => (t.foldl NodeItem.expand h).box

/-- Modelled from the spec (4.4): the parent node of one group of
children: its box is the union-fold of the group's boxes, its `offset`
the flat-array index of the group's first member. -/
def groupParent (pos : ℕ) : List NodeItem → NodeItem
  | [] => NodeItem.create pos
  | h :: t => { t.foldl NodeItem.expand h with offset := pos }

/-- Modelled from the spec (4.4): build one parent level: partition the
child level (which occupies flat-array indices `[start, start + length)`)
into consecutive groups of at most `ns` nodes and emit one parent per
group. -/
def buildParents (ns : ℕ) : ℕ → List NodeItem → List NodeItem
  | _, [] => []
  | start, x :: xs =>
    groupParent start (x :: xs.take (ns - 1)) ::
      buildParents ns (start + ns) (xs.drop (ns - 1))
termination_by _ l => l.length
decreasing_by simp only [List.length_drop, List.length_cons]; omega

/-- Ceiling division advances by one for each full block removed. -/
theorem ceilDiv_succ_block {x m : ℕ} (hx : 1 ≤ x) (hm : 1 ≤ m) :
    ceilDiv x m = 1 + ceilDiv (x - m) m := by
  simp only [ceilDiv]
  rcases le_or_lt x m with hle | hlt
  · have h0 : x - m = 0 := by omega
    rw [h0]
    have hz : (0 + m - 1) / m = 0 := Nat.div_eq_of_lt (by omega)
    rw [hz]
    have h1 : x + m - 1 = (x - 1) + 1 * m := by omega
    rw [h1, Nat.add_mul_div_right _ _ (show 0 < m by omega)]
    have h2 : (x - 1) / m = 0 := Nat.div_eq_of_lt (by omega)
    rw [h2]
  · have h1 : x + m - 1 = (x - m + m - 1) + m := by omega
    rw [h1, Nat.add_div_right _ (show 0 < m by omega)]
    omega

/-- A parent level has the ceiling-divided node count of its child
level. -/
theorem buildParents_length (m : ℕ) (hm : 1 ≤ m) :
    ∀ s l, (buildParents m s l).length = ceilDiv l.length m := by
  intro s l
  induction s, l using buildParents.induct m with
  | case1 s =>
    simp only [buildParents, List.length_nil, ceilDiv]
    exact (Nat.div_eq_of_lt (by omega)).symm
  | case2 s x xs ih =>
    simp only [buildParents, List.length_cons, ih, List.length_drop]
    rw [ceilDiv_succ_block (x := xs.length + 1) (by omega) hm]
    have harg : xs.length - (m - 1) = xs.length + 1 - m := by omega
    rw [harg]
    omega

/-- Modelled from the spec (4.4): all levels of a built tree, leaf level
first: starting from the given leaf level at flat-array index `start`,
repeatedly append the parent level until a level with at most one node
(the root) is reached.  The defensive `max 2` mirrors the clamp of spec
7 and makes the recursion terminate; all callers pass an already-clamped
branching factor, for which `max 2 ns = ns`. -/
def treeLevels (ns : ℕ) (start : ℕ) (level : List NodeItem) :
    List (List NodeItem) :=
  if level.length ≤ 1 then [level]
  else
    level ::
      treeLevels ns (start + level.length) (buildParents (max 2 ns) start level)
termination_by level.length
decreasing_by
  rw [buildParents_length (max 2 ns) (by omega)]
  exact ceilDiv_lt (by omega) (by omega)

/-- Modelled from the spec (4.4): the flat node array of a built tree:
the concatenation of all levels, leaf level first, root last. -/
def buildLevels (ns start : ℕ) (level : List NodeItem) : List NodeItem :=
  (treeLevels ns start level).flatten

/-- The `PackedRTree` class state (header lines 120-131): the flat node
array, its dimensions, the level bounds and the extent. -/
structure PackedRTree where
  nodeItems : List NodeItem
  numItems : ℕ
  numNodes : ℕ
  nodeSize : ℕ
  levelBounds : List (ℕ × ℕ)
  extent : NodeItem
deriving DecidableEq, Repr

/-- Modelled from the spec (4.4): construction from a list of leaf nodes
and an extent (header constructors, lines 139-147; all item-based
constructors converge on this array layout): clamp the branching factor,
derive the level bounds from `(numItems, nodeSize)`, place the leaves at
the front of the flat array, build parent levels bottom-up, and record
the last node appended (the root) as the tree's extent.  With zero items
the node array is empty and the supplied extent is kept. -/
def PackedRTree.build (nodes : List NodeItem) (extent : NodeItem)
    (nodeSize : ℕ) : PackedRTree :=
  let ns := clampNodeSize nodeSize
  let arr := buildLevels ns 0 nodes
  { nodeItems := arr
    numItems := nodes.length
    numNodes := (levelCounts nodes.length nodeSize).sum
    nodeSize := ns
    levelBounds := PackedRTree.generateLevelBounds nodes.length nodeSize
    extent := (arr.getLast?).getD extent }

/-- Modelled from the spec (4.4 and 7): the from-existing-bytes
constructor (header lines 143-144): wrap an already-serialized buffer
without any structural validation; the dimensions and level bounds are
derived from `(numItems, nodeSize)`; the extent is read from the root
record, the last record of the leaf-first layout. -/
def PackedRTree.fromData (data : List NodeItem) (numItems nodeSize : ℕ) :
    PackedRTree :=
  { nodeItems := data
    numItems := numItems
    numNodes := (levelCounts numItems nodeSize).sum
    nodeSize := clampNodeSize nodeSize
    levelBounds := PackedRTree.generateLevelBounds numItems nodeSize
    extent := (data.getLast?).getD (NodeItem.create 0) }

/-- The `PackedRTree::getExtent` accessor (header line 157). -/
def PackedRTree.getExtent (t : PackedRTree) : NodeItem := t.extent

/-- Modelled from the spec (4.7): `PackedRTree::streamWrite` (declared
header line 158) emits the full node array, level by level from leaves to
root — exactly the flat array in order.  The fixed-width 40-byte record
encoding is a bijection between byte blocks and node records, so the
emitted stream is modelled at record granularity. -/
def PackedRTree.streamWrite (t : PackedRTree) : List NodeItem := t.nodeItems

/-- A trivial memory-backed `readNode` callback over a serialized node
stream: yield the `count` records starting at record index `start`. -/
def memReadNode (data : List NodeItem) (start count : ℕ) : List NodeItem :=
  (data.drop start).take count

/-- Measure for the explicit-stack traversals: a stack entry at level `l`
weighs `(ns+1)^l`; expanding an entry replaces it by at most `ns` entries
one level lower. -/
def stackWeight (ns : ℕ) (stack : List (ℕ × ℕ)) : ℕ :=
  (stack.map (fun e => (ns + 1) ^ e.2)).sum

theorem stackWeight_append (ns : ℕ) (a b : List (ℕ × ℕ)) :
    stackWeight ns (a ++ b) = stackWeight ns a + stackWeight ns b := by
  simp [stackWeight]

theorem stackWeight_map_level {α : Type} (ns : ℕ) (f : α → ℕ) (lev : ℕ)
    (l : List α) :
    stackWeight ns (l.map (fun a => (f a, lev))) = l.length * (ns + 1) ^ lev := by
  simp only [stackWeight, List.map_map]
  have hconst : (fun a => ((ns + 1) ^ (f a, lev).2)) = fun _ : α => (ns + 1) ^ lev := rfl
  rw [Function.comp_def]
  simp only [hconst, List.map_const', List.sum_replicate, smul_eq_mul]

/-- End index of a level in the flat array, read from the level bounds
(0 when the level index is out of range). -/
def levelEnd (bounds : List (ℕ × ℕ)) (level : ℕ) : ℕ :=
  (bounds.getD level (0, 0)).2

/-- The run of consecutive array entries, paired with their flat-array
indices, covered by a stack entry `(nodeIndex, level)`: up to `nodeSize`
entries starting at `nodeIndex`, capped by the end of the level. -/
def nodeRun (ns : ℕ) (bounds : List (ℕ × ℕ)) (items : List NodeItem)
    (nodeIndex level : ℕ) : List (ℕ × NodeItem) :=
  List.enumFrom nodeIndex
    ((items.drop nodeIndex).take
      (min (nodeIndex + ns) (levelEnd bounds level) - nodeIndex))

theorem nodeRun_length_le (ns : ℕ) (bounds : List (ℕ × ℕ))
    (items : List NodeItem) (nodeIndex level : ℕ) :
    (nodeRun ns bounds items nodeIndex level).length ≤ ns := by
  simp only [nodeRun, List.enumFrom_length, List.length_take]
  omega

/-- Modelled from the spec (4.5): the explicit-stack traversal of the
in-memory `PackedRTree::search` (declared header lines 148-149).  A stack
entry `(nodeIndex, level)` denotes the run of siblings starting at
`nodeIndex`.  Intersecting leaf-level entries are emitted as results
(their `index` is the position among the leaves, which start at array
index 0); an intersecting entry of a higher level pushes the run of its
children, which starts at the entry's `offset` one level down. -/
def searchAux (ns : ℕ) (bounds : List (ℕ × ℕ)) (items : List NodeItem)
    (q : NodeItem) : List (ℕ × ℕ) → List SearchResultItem
  | [] => []
  | (nodeIndex, level) :: rest =>
    if level = 0 then
      (((nodeRun ns bounds items nodeIndex level).filter
          (fun p => q.intersects p.2)).map
          (fun p => SearchResultItem.mk p.2.offset p.1)) ++
        searchAux ns bounds items q rest
    else
      searchAux ns bounds items q
        ((((nodeRun ns bounds items nodeIndex level).filter
            (fun p => q.intersects p.2)).map
            (fun p => (p.2.offset, level - 1))) ++ rest)
termination_by stack => stackWeight ns stack
decreasing_by
  · simp only [stackWeight, List.map_cons, List.sum_cons]
    have := Nat.pos_pow_of_pos level (show 0 < ns + 1 by omega)
    omega
  · rw [stackWeight_append, stackWeight_map_level]
    simp only [stackWeight, List.map_cons, List.sum_cons]
    have hlen : ((nodeRun ns bounds items nodeIndex level).filter
        (fun p => q.intersects p.2)).length ≤ ns :=
      le_trans (List.length_filter_le _ _) (nodeRun_length_le ns bounds items nodeIndex level)
    have hlev : level = (level - 1) + 1 := by omega
    have hpow : (ns + 1) ^ level = (ns + 1) ^ (level - 1) * (ns + 1) := by
      conv_lhs => rw [hlev]
      rw [pow_succ]
    have hppos : 0 < (ns + 1) ^ (level - 1) := Nat.pos_pow_of_pos _ (by omega)
    have hstep : ((nodeRun ns bounds items nodeIndex level).filter
        (fun p => q.intersects p.2)).length * (ns + 1) ^ (level - 1) <
        (ns + 1) ^ level := by
      rw [hpow]
      calc ((nodeRun ns bounds items nodeIndex level).filter
            (fun p => q.intersects p.2)).length * (ns + 1) ^ (level - 1)
          ≤ ns * (ns + 1) ^ (level - 1) := Nat.mul_le_mul_right _ hlen
        _ < (ns + 1) * (ns + 1) ^ (level - 1) :=
            (Nat.mul_lt_mul_right hppos).mpr (by omega)
        _ = (ns + 1) ^ (level - 1) * (ns + 1) := Nat.mul_comm _ _
    omega

/-- Modelled from the spec (4.5): `PackedRTree::search`: start the
traversal at the root index `numNodes - 1` and the topmost level. -/
def PackedRTree.search (t : PackedRTree) (minX minY maxX maxY : ℚ) :
    List SearchResultItem :=
  searchAux t.nodeSize t.levelBounds t.nodeItems ⟨minX, minY, maxX, maxY, 0⟩
    [(t.numNodes - 1, t.levelBounds.length - 1)]

/-- The run of records covered by a stack entry, fetched through the
caller-supplied windowed reader instead of a resident array.  The C++
buffer holds exactly `count` 40-byte records, so at most `count` records
of what the callback yields are used. -/
def streamRun (ns : ℕ) (bounds : List (ℕ × ℕ))
    (readNode : ℕ → ℕ → List NodeItem) (nodeIndex level : ℕ) :
    List (ℕ × NodeItem) :=
  List.enumFrom nodeIndex
    ((readNode nodeIndex
        (min (nodeIndex + ns) (levelEnd bounds level) - nodeIndex)).take
      (min (nodeIndex + ns) (levelEnd bounds level) - nodeIndex))

theorem streamRun_length_le (ns : ℕ) (bounds : List (ℕ × ℕ))
    (readNode : ℕ → ℕ → List NodeItem) (nodeIndex level : ℕ) :
    (streamRun ns bounds readNode nodeIndex level).length ≤ ns := by
  simp only [streamRun, List.enumFrom_length, List.length_take]
  omega

/-- Modelled from the spec (4.6): the traversal of the static
`PackedRTree::streamSearch` (declared header lines 150-152): logically
identical to the in-memory traversal, but each sibling run is fetched by
one windowed `readNode` call covering the whole run. -/
def streamSearchAux (ns : ℕ) (bounds : List (ℕ × ℕ))
    (readNode : ℕ → ℕ → List NodeItem) (q : NodeItem) :
    List (ℕ × ℕ) → List SearchResultItem
  | [] => []
  | (nodeIndex, level) :: rest =>
    if level = 0 then
      (((streamRun ns bounds readNode nodeIndex level).filter
          (fun p => q.intersects p.2)).map
          (fun p => SearchResultItem.mk p.2.offset p.1)) ++
        streamSearchAux ns bounds readNode q rest
    else
      streamSearchAux ns bounds readNode q
        ((((streamRun ns bounds readNode nodeIndex level).filter
            (fun p => q.intersects p.2)).map
            (fun p => (p.2.offset, level - 1))) ++ rest)
termination_by stack => stackWeight ns stack
decreasing_by
  · simp only [stackWeight, List.map_cons, List.sum_cons]
    have := Nat.pos_pow_of_pos level (show 0 < ns + 1 by omega)
    omega
  · rw [stackWeight_append, stackWeight_map_level]
    simp only [stackWeight, List.map_cons, List.sum_cons]
    have hlen : ((streamRun ns bounds readNode nodeIndex level).filter
        (fun p => q.intersects p.2)).length ≤ ns :=
      le_trans (List.length_filter_le _ _)
        (streamRun_length_le ns bounds readNode nodeIndex level)
    have hlev : level = (level - 1) + 1 := by omega
    have hpow : (ns + 1) ^ level = (ns + 1) ^ (level - 1) * (ns + 1) := by
      conv_lhs => rw [hlev]
      rw [pow_succ]
    have hppos : 0 < (ns + 1) ^ (level - 1) := Nat.pos_pow_of_pos _ (by omega)
    have hstep : ((streamRun ns bounds readNode nodeIndex level).filter
        (fun p => q.intersects p.2)).length * (ns + 1) ^ (level - 1) <
        (ns + 1) ^ level := by
      rw [hpow]
      calc ((streamRun ns bounds readNode nodeIndex level).filter
            (fun p => q.intersects p.2)).length * (ns + 1) ^ (level - 1)
          ≤ ns * (ns + 1) ^ (level - 1) := Nat.mul_le_mul_right _ hlen
        _ < (ns + 1) * (ns + 1) ^ (level - 1) :=
            (Nat.mul_lt_mul_right hppos).mpr (by omega)
        _ = (ns + 1) ^ (level - 1) * (ns + 1) := Nat.mul_comm _ _
    omega

/-- Modelled from the spec (4.6): the static `PackedRTree::streamSearch`:
derive the clamped branching factor, level bounds and node count from
`(numItems, nodeSize)` exactly as construction does, then run the
traversal from the root through the windowed reader. -/
def PackedRTree.streamSearch (numItems nodeSize : ℕ) (item : NodeItem)
    (readNode : ℕ → ℕ → List NodeItem) : List SearchResultItem :=
  streamSearchAux (clampNodeSize nodeSize)
    (PackedRTree.generateLevelBounds numItems nodeSize) readNode item
    [((levelCounts numItems nodeSize).sum - 1,
      (PackedRTree.generateLevelBounds numItems nodeSize).length - 1)]

/-- Through a memory-backed reader over the serialized records, a fetched
run coincides with the in-memory run. -/
theorem streamRun_memReadNode (ns : ℕ) (bounds : List (ℕ × ℕ))
    (data : List NodeItem) (nodeIndex level : ℕ) :
    streamRun ns bounds (memReadNode data) nodeIndex level =
      nodeRun ns bounds data nodeIndex level := by
  simp [streamRun, nodeRun, memReadNode, List.take_take]

/-- The streaming traversal through a memory-backed reader coincides with
the in-memory traversal, stack by stack. -/
theorem streamSearchAux_memReadNode (ns : ℕ) (bounds : List (ℕ × ℕ))
    (data : List NodeItem) (q : NodeItem) :
    ∀ stack, streamSearchAux ns bounds (memReadNode data) q stack =
      searchAux ns bounds data q stack := by
  intro stack
  induction stack using streamSearchAux.induct ns bounds (memReadNode data) q with
  | case1 => rw [streamSearchAux, searchAux]
  | case2 nodeIndex rest ih =>
    rw [streamSearchAux, searchAux]
    simp only [if_pos rfl, streamRun_memReadNode, ih]
    simp
  | case3 nodeIndex level rest h ih =>
    rw [streamSearchAux, searchAux]
    simp only [h, if_false, streamRun_memReadNode]
    simp only [streamRun_memReadNode] at ih
    exact ih

/-- C1: for every built tree and every query box, the in-memory
`search` and the static `streamSearch` fed the tree's serialized bytes
through a trivial memory-backed `readNode` return identical result
lists, and in particular identical sets of `offset` values. -/
theorem search_streamSearch_equiv (nodes : List NodeItem) (ext : NodeItem)
    (nodeSize : ℕ) (minX minY maxX maxY : ℚ) :
    PackedRTree.streamSearch nodes.length nodeSize ⟨minX, minY, maxX, maxY, 0⟩
        (memReadNode ((PackedRTree.build nodes ext nodeSize).streamWrite)) =
      (PackedRTree.build nodes ext nodeSize).search minX minY maxX maxY ∧
    ∀ off : ℕ,
      (off ∈ ((PackedRTree.build nodes ext nodeSize).search minX minY maxX
          maxY).map SearchResultItem.offset ↔
        off ∈ (PackedRTree.streamSearch nodes.length nodeSize
          ⟨minX, minY, maxX, maxY, 0⟩
          (memReadNode ((PackedRTree.build nodes ext nodeSize).streamWrite))).map
          SearchResultItem.offset) := by
  have heq : PackedRTree.streamSearch nodes.length nodeSize
      ⟨minX, minY, maxX, maxY, 0⟩
      (memReadNode ((PackedRTree.build nodes ext nodeSize).streamWrite)) =
      (PackedRTree.build nodes ext nodeSize).search minX minY maxX maxY := by
    simp only [PackedRTree.streamSearch, PackedRTree.search, PackedRTree.build,
      PackedRTree.streamWrite]
    exact streamSearchAux_memReadNode _ _ _ _ _
  exact ⟨heq, fun off => by rw [heq]⟩

/-- C6: serializing a built tree with `streamWrite` and reconstructing it
through the from-existing-bytes constructor yields a tree whose search
returns the same results (hence the same unordered set of offsets) as the
original in-memory tree's search, for every query. -/
theorem search_round_trip (nodes : List NodeItem) (ext : NodeItem)
    (nodeSize : ℕ) (minX minY maxX maxY : ℚ) :
    (PackedRTree.fromData ((PackedRTree.build nodes ext nodeSize).streamWrite)
        nodes.length nodeSize).search minX minY maxX maxY =
      (PackedRTree.build nodes ext nodeSize).search minX minY maxX maxY ∧
    ∀ off : ℕ,
      (off ∈ ((PackedRTree.fromData
          ((PackedRTree.build nodes ext nodeSize).streamWrite)
          nodes.length nodeSize).search minX minY maxX maxY).map
          SearchResultItem.offset ↔
        off ∈ ((PackedRTree.build nodes ext nodeSize).search minX minY maxX
          maxY).map SearchResultItem.offset) := by
  have heq : (PackedRTree.fromData
      ((PackedRTree.build nodes ext nodeSize).streamWrite)
      nodes.length nodeSize).search minX minY maxX maxY =
      (PackedRTree.build nodes ext nodeSize).search minX minY maxX maxY := by
    simp only [PackedRTree.fromData, PackedRTree.search, PackedRTree.build,
      PackedRTree.streamWrite]
  exact ⟨heq, fun off => by rw [heq]⟩

/-- C8: zero items are a valid input: construction from no items yields a
zero-size node array, and every search — in-memory or streaming, the
latter for an arbitrary reader — returns the empty result list. -/
theorem empty_index_queries (ext : NodeItem) (nodeSize : ℕ)
    (minX minY maxX maxY : ℚ) (q : NodeItem)
    (readNode : ℕ → ℕ → List NodeItem) :
    (PackedRTree.build [] ext nodeSize).nodeItems = [] ∧
    (PackedRTree.build [] ext nodeSize).numNodes = 0 ∧
    (PackedRTree.build [] ext nodeSize).search minX minY maxX maxY = [] ∧
    PackedRTree.streamSearch 0 nodeSize q readNode = [] := by
  refine ⟨?_, rfl, ?_, ?_⟩
  · simp only [PackedRTree.build, buildLevels]
    rw [treeLevels]
    simp
  · simp only [PackedRTree.search, PackedRTree.build]
    rw [searchAux]
    simp only [levelCounts, if_pos rfl, PackedRTree.generateLevelBounds,
      boundsFromCounts]
    simp [nodeRun, levelEnd, searchAux]
  · simp only [PackedRTree.streamSearch]
    rw [streamSearchAux]
    simp only [levelCounts, if_pos rfl, PackedRTree.generateLevelBounds,
      boundsFromCounts]
    simp [streamRun, levelEnd, streamSearchAux]

/-- C7: a branching factor below 2 is silently clamped to 2:
`generateLevelBounds`, `size`, tree construction and the streaming search
behave exactly as with a branching factor of 2 (and, being total
functions, terminate). -/
theorem nodeSize_clamped_to_two (numItems nodeSize : ℕ)
    (nodes : List NodeItem) (ext : NodeItem) (h : nodeSize < 2) :
    PackedRTree.generateLevelBounds numItems nodeSize =
      PackedRTree.generateLevelBounds numItems 2 ∧
    PackedRTree.size numItems nodeSize = PackedRTree.size numItems 2 ∧
    PackedRTree.build nodes ext nodeSize = PackedRTree.build nodes ext 2 ∧
    ∀ (item : NodeItem) (readNode : ℕ → ℕ → List NodeItem),
      PackedRTree.streamSearch numItems nodeSize item readNode =
        PackedRTree.streamSearch numItems 2 item readNode := by
  have hc : clampNodeSize nodeSize = 2 := by
    simp only [clampNodeSize]
    omega
  have hc2 : clampNodeSize 2 = 2 := by decide
  refine ⟨?_, ?_, ?_, fun item readNode => ?_⟩
  · simp only [PackedRTree.generateLevelBounds, levelCounts, hc, hc2]
  · simp only [PackedRTree.size, levelCounts, hc, hc2]
  · simp only [PackedRTree.build, buildLevels, levelCounts,
      PackedRTree.generateLevelBounds, hc, hc2]
  · simp only [PackedRTree.streamSearch, levelCounts,
      PackedRTree.generateLevelBounds, hc, hc2]

/-- Witness for C7 at `numItems = 4`, `nodeSize = 1`, one leaf node. -/
theorem nodeSize_clamped_to_two_witness :
    1 < 2 ∧
    (PackedRTree.generateLevelBounds 4 1 = PackedRTree.generateLevelBounds 4 2 ∧
    PackedRTree.size 4 1 = PackedRTree.size 4 2 ∧
    PackedRTree.build [NodeItem.create 7] (NodeItem.create 0) 1 =
      PackedRTree.build [NodeItem.create 7] (NodeItem.create 0) 2 ∧
    ∀ (item : NodeItem) (readNode : ℕ → ℕ → List NodeItem),
      PackedRTree.streamSearch 4 1 item readNode =
        PackedRTree.streamSearch 4 2 item readNode) :=
  ⟨by omega, nodeSize_clamped_to_two 4 1 [NodeItem.create 7] (NodeItem.create 0)
    (by omega)⟩

/-- C5: `hilbertSort` orders the items descending by their Hilbert key,
whatever the Hilbert key function is: the output is a permutation of the
input in which every adjacent pair has a non-increasing key, where an
item's key is `hilbert(box, HILBERT_MAX, minX, minY, width, height)` with
the parameters taken from the fold-union extent of the items being
sorted, and `HILBERT_MAX = 2^16 - 1`.  The comparator of the source is
the strict `hilbert(a,...) > hilbert(b,...)`, whose sort guarantee is
exactly that consecutive output elements `a, b` satisfy
`¬(hilbert(b,...) > hilbert(a,...))`. -/
theorem hilbertSort_sorted (hilbert : NodeItem → ℕ → ℚ → ℚ → ℚ → ℚ → ℕ)
    (items : List Item) :
    HILBERT_MAX = 2 ^ 16 - 1 ∧
    (hilbertSort hilbert items).Perm items ∧
    List.Pairwise (fun a b =>
      ¬(hilbert b.nodeItem HILBERT_MAX (calcExtent items).minX
          (calcExtent items).minY (calcExtent items).width
          (calcExtent items).height >
        hilbert a.nodeItem HILBERT_MAX (calcExtent items).minX
          (calcExtent items).minY (calcExtent items).width
          (calcExtent items).height))
      (hilbertSort hilbert items) := by
  refine ⟨rfl, List.mergeSort_perm _ _, ?_⟩
  have hs := @List.sorted_mergeSort Item
    (fun a b : Item =>
      !(decide (hilbert b.nodeItem HILBERT_MAX (calcExtent items).minX
          (calcExtent items).minY (calcExtent items).width
          (calcExtent items).height >
        hilbert a.nodeItem HILBERT_MAX (calcExtent items).minX
          (calcExtent items).minY (calcExtent items).width
          (calcExtent items).height)))
    (fun a b c hab hbc => by
      simp only [Bool.not_eq_eq_eq_not, Bool.not_true, decide_eq_false_iff_not,
        not_lt] at hab hbc ⊢
      exact le_trans hbc hab)
    (fun a b => by
      simp only [Bool.not_eq_eq_eq_not, Bool.not_true, decide_eq_false_iff_not,
        not_lt, Bool.or_eq_true]
      omega)
    items
  have hout : hilbertSort hilbert items = items.mergeSort
      (fun a b : Item =>
        !(decide (hilbert b.nodeItem HILBERT_MAX (calcExtent items).minX
            (calcExtent items).minY (calcExtent items).width
            (calcExtent items).height >
          hilbert a.nodeItem HILBERT_MAX (calcExtent items).minX
            (calcExtent items).minY (calcExtent items).width
            (calcExtent items).height))) := rfl
  rw [hout]
  refine hs.imp ?_
  intro a b hab
  simp only [Bool.not_eq_eq_eq_not, Bool.not_true, decide_eq_false_iff_not] at hab
  exact hab

/-! Box algebra: `expand` acts on boxes as the component-wise min/max
union, which is associative; folded unions of nonempty runs compose. -/

theorem expand_box (a r : NodeItem) : (a.expand r).box = a.box.union r.box := rfl

theorem groupParent_box (pos : ℕ) {g : List NodeItem} (hg : g ≠ []) :
    (groupParent pos g).box = leavesUnion g := by
  cases g with
  | nil => exact absurd rfl hg
  | cons h t => rfl

theorem groupParent_offset (pos : ℕ) (g : List NodeItem) :
    (groupParent pos g).offset = pos := by
  cases g <;> rfl

theorem Box.union_assoc (a b c : Box) :
    (a.union b).union c = a.union (b.union c) := by
  cases a; cases b; cases c
  simp [Box.union, min_assoc, max_assoc]

theorem foldl_union_shift (x : Box) :
    ∀ (t : List Box) (y : Box),
      t.foldl Box.union (x.union y) = x.union (t.foldl Box.union y) := by
  intro t
  induction t with
  | nil => intro y; rfl
  | cons b t ih =>
    intro y
    simp only [List.foldl_cons, Box.union_assoc]
    exact ih (y.union b)

/-- Fold of `Box.union` over a nonempty list, from its head. -/
def boxUnionOf (bs : List Box) : Box :=
  match bs with
  | [] => ⟨0, 0, 0, 0⟩
  | h :: t => t.foldl Box.union h

theorem boxUnionOf_cons_ne (h : Box) {t : List Box} (ht : t ≠ []) :
    boxUnionOf (h :: t) = h.union (boxUnionOf t) := by
  cases t with
  | nil => exact absurd rfl ht
  | cons a t' =>
    simp only [boxUnionOf, List.foldl_cons]
    exact foldl_union_shift h t' a

theorem boxUnionOf_append {a b : List Box} (ha : a ≠ []) (hb : b ≠ []) :
    boxUnionOf (a ++ b) = (boxUnionOf a).union (boxUnionOf b) := by
  cases a with
  | nil => exact absurd rfl ha
  | cons x xs =>
    cases b with
    | nil => exact absurd rfl hb
    | cons y ys =>
      simp only [boxUnionOf, List.cons_append, List.foldl_append, List.foldl_cons]
      rw [foldl_union_shift _ ys y]

theorem foldl_expand_box :
    ∀ (t : List NodeItem) (h : NodeItem),
      (t.foldl NodeItem.expand h).box =
        (t.map NodeItem.box).foldl Box.union h.box := by
  intro t
  induction t with
  | nil => intro h; rfl
  | cons a t ih =>
    intro h
    simp only [List.foldl_cons, List.map_cons, ih, expand_box]

theorem leavesUnion_eq_boxUnionOf (l : List NodeItem) :
    leavesUnion l = boxUnionOf (l.map NodeItem.box) := by
  cases l with
  | nil => rfl
  | cons h t =>
    simp only [leavesUnion, boxUnionOf, List.map_cons]
    exact foldl_expand_box t h

theorem leavesUnion_append {a b : List NodeItem} (ha : a ≠ []) (hb : b ≠ []) :
    leavesUnion (a ++ b) = (leavesUnion a).union (leavesUnion b) := by
  rw [leavesUnion_eq_boxUnionOf, leavesUnion_eq_boxUnionOf,
    leavesUnion_eq_boxUnionOf, List.map_append]
  exact boxUnionOf_append (by simpa using ha) (by simpa using hb)

theorem leavesUnion_cons_ne (h : NodeItem) {t : List NodeItem} (ht : t ≠ []) :
    leavesUnion (h :: t) = (h.box).union (leavesUnion t) := by
  rw [leavesUnion_eq_boxUnionOf, leavesUnion_eq_boxUnionOf, List.map_cons]
  exact boxUnionOf_cons_ne _ (by simpa using ht)

theorem leavesUnion_singleton (n : NodeItem) : leavesUnion [n] = n.box := rfl

/-! Structure of one parent level. -/

theorem buildParents_ne_nil (m s : ℕ) {l : List NodeItem} (hl : l ≠ []) :
    buildParents m s l ≠ [] := by
  cases l with
  | nil => exact absurd rfl hl
  | cons x xs => simp [buildParents]

/-- Building a parent level preserves the union of boxes. -/
theorem buildParents_union (m : ℕ) :
    ∀ s (l : List NodeItem), l ≠ [] →
      leavesUnion (buildParents m s l) = leavesUnion l := by
  intro s l
  induction s, l using buildParents.induct m with
  | case1 s => intro hl; exact absurd rfl hl
  | case2 s x xs ih =>
    intro _
    simp only [buildParents]
    by_cases hd : xs.drop (m - 1) = []
    · have hlen : xs.length ≤ m - 1 := by
        have := List.length_drop (m - 1) xs
        rw [hd] at this
        simp at this
        omega
      have htake : xs.take (m - 1) = xs := List.take_of_length_le hlen
      rw [hd]
      simp only [buildParents]
      rw [leavesUnion_singleton, groupParent_box _ (by simp), htake]
    · have hparents := buildParents_ne_nil m (s + m) hd
      rw [leavesUnion_cons_ne _ hparents, groupParent_box _ (by simp), ih hd]
      have hsplit : (x :: xs.take (m - 1)) ++ xs.drop (m - 1) = x :: xs := by
        rw [List.cons_append, List.take_append_drop]
      rw [← hsplit, leavesUnion_append (by simp) hd]

/-- Element structure of one parent level: the `j`-th parent is the
group parent of the `j`-th chunk of `m` children, positioned at the
child-level start plus `j * m`. -/
theorem buildParents_getD (m : ℕ) (hm : 1 ≤ m) :
    ∀ s (l : List NodeItem), ∀ j, j < (buildParents m s l).length →
      (buildParents m s l).getD j default =
        groupParent (s + j * m) ((l.drop (j * m)).take m) := by
  intro s l
  induction s, l using buildParents.induct m with
  | case1 s => intro j hj; simp [buildParents] at hj
  | case2 s x xs ih =>
    intro j hj
    match j with
    | 0 =>
      simp only [buildParents, List.getD_cons_zero, Nat.zero_mul, Nat.add_zero,
        List.drop_zero]
      obtain ⟨k, rfl⟩ : ∃ k, m = k + 1 := ⟨m - 1, by omega⟩
      rw [List.take_succ_cons]
      simp
    | j + 1 =>
      simp only [buildParents, List.getD_cons_succ]
      simp only [buildParents, List.length_cons] at hj
      rw [ih j (by omega)]
      have h1 : s + m + j * m = s + (j + 1) * m := by ring
      have h2 : (xs.drop (m - 1)).drop (j * m) = (x :: xs).drop ((j + 1) * m) := by
        rw [List.drop_drop]
        have h3 : (j + 1) * m = (m - 1 + j * m) + 1 := by
          have : (j + 1) * m = j * m + m := by ring
          omega
        rw [h3, List.drop_succ_cons]
      rw [h1, h2]

/-! Structure of the level list and of the flattened node array. -/

theorem treeLevels_base {ns s : ℕ} {l : List NodeItem} (h : l.length ≤ 1) :
    treeLevels ns s l = [l] := by
  rw [treeLevels]
  simp [h]

theorem treeLevels_step {ns s : ℕ} {l : List NodeItem} (h : ¬l.length ≤ 1) :
    treeLevels ns s l =
      l :: treeLevels ns (s + l.length) (buildParents (max 2 ns) s l) := by
  rw [treeLevels]
  simp [h]

theorem treeLevels_ne_nil (ns s : ℕ) (l : List NodeItem) :
    treeLevels ns s l ≠ [] := by
  by_cases h : l.length ≤ 1
  · rw [treeLevels_base h]; simp
  · rw [treeLevels_step h]; simp

theorem treeLevels_getD_zero (ns s : ℕ) (l : List NodeItem) :
    (treeLevels ns s l).getD 0 [] = l := by
  by_cases h : l.length ≤ 1
  · rw [treeLevels_base h]; rfl
  · rw [treeLevels_step h]; rfl

theorem treeLevels_map_length (ns : ℕ) :
    ∀ s (l : List NodeItem), l ≠ [] →
      (treeLevels ns s l).map List.length = levelCountsAux ns l.length := by
  intro s l
  induction s, l using treeLevels.induct ns with
  | case1 s l h =>
    intro _
    rw [treeLevels_base h, levelCountsAux_base h]
    rfl
  | case2 s l h ih =>
    intro hl
    rw [treeLevels_step h, levelCountsAux_step h]
    simp only [List.map_cons]
    rw [ih (buildParents_ne_nil _ _ hl),
      buildParents_length (max 2 ns) (by omega)]

theorem treeLevels_levels_ne_nil (ns : ℕ) :
    ∀ s (l : List NodeItem), l ≠ [] →
      ∀ lvl ∈ treeLevels ns s l, lvl ≠ [] := by
  intro s l
  induction s, l using treeLevels.induct ns with
  | case1 s l h =>
    intro hl lvl hlvl
    rw [treeLevels_base h] at hlvl
    simp at hlvl
    rwa [hlvl]
  | case2 s l h ih =>
    intro hl lvl hlvl
    rw [treeLevels_step h] at hlvl
    rcases List.mem_cons.mp hlvl with rfl | hlvl
    · exact hl
    · exact ih (buildParents_ne_nil _ _ hl) lvl hlvl

/-- The root level of a built tree is a single node whose box is the
union of all the leaf boxes. -/
theorem treeLevels_getLast (ns : ℕ) :
    ∀ s (l : List NodeItem), l ≠ [] →
      ∃ r : NodeItem, (treeLevels ns s l).getLast? = some [r] ∧
        r.box = leavesUnion l := by
  intro s l
  induction s, l using treeLevels.induct ns with
  | case1 s l h =>
    intro hl
    match l, h, hl with
    | [x], _, _ =>
      exact ⟨x, by rw [treeLevels_base (by simp)]; simp, rfl⟩
  | case2 s l h ih =>
    intro hl
    obtain ⟨r, hr, hbox⟩ := ih (buildParents_ne_nil _ _ hl)
    refine ⟨r, ?_, ?_⟩
    · rw [treeLevels_step h, List.getLast?_cons, hr]
      rfl
    · rw [hbox, buildParents_union _ _ _ hl]

/-- Each non-leaf level of the level list is the parent level of the
level below it, built at the flat-array position of that lower level. -/
theorem treeLevels_parent (ns : ℕ) :
    ∀ s (l : List NodeItem) (li : ℕ), li + 1 < (treeLevels ns s l).length →
      (treeLevels ns s l).getD (li + 1) [] =
        buildParents (max 2 ns)
          (s + ((((treeLevels ns s l).map List.length).take li).sum))
          ((treeLevels ns s l).getD li []) := by
  intro s l
  induction s, l using treeLevels.induct ns with
  | case1 s l h =>
    intro li hli
    rw [treeLevels_base h] at hli
    simp at hli
  | case2 s l h ih =>
    intro li hli
    rw [treeLevels_step h] at hli ⊢
    match li with
    | 0 =>
      simp only [List.getD_cons_succ, List.getD_cons_zero, List.take_zero,
        List.sum_nil, Nat.add_zero]
      rw [treeLevels_getD_zero]
    | li + 1 =>
      simp only [List.getD_cons_succ, List.map_cons, List.take_succ_cons,
        List.sum_cons, List.length_cons] at hli ⊢
      rw [ih li (by omega)]
      have harith : s + l.length +
          (((treeLevels ns (s + l.length) (buildParents (max 2 ns) s l)).map
            List.length).take li).sum =
          s + (l.length +
          (((treeLevels ns (s + l.length) (buildParents (max 2 ns) s l)).map
            List.length).take li).sum) := by omega
      rw [harith]

/-! Helpers for indexing and slicing lists. -/

theorem getD_drop {α : Type} (d : α) :
    ∀ (l : List α) (a j : ℕ), (l.drop a).getD j d = l.getD (a + j) d := by
  intro l
  induction l with
  | nil => intro a j; simp
  | cons x xs ih =>
    intro a j
    match a with
    | 0 => simp
    | a + 1 =>
      simp only [List.drop_succ_cons]
      rw [ih a j]
      have h1 : a + 1 + j = (a + j) + 1 := by omega
      rw [h1, List.getD_cons_succ]

theorem getD_take {α : Type} (d : α) :
    ∀ (l : List α) (n j : ℕ), j < n → (l.take n).getD j d = l.getD j d := by
  intro l
  induction l with
  | nil => intro n j _; simp
  | cons x xs ih =>
    intro n j hj
    match n, j with
    | n + 1, 0 => simp
    | n + 1, j + 1 =>
      simp only [List.take_succ_cons, List.getD_cons_succ]
      exact ih n j (by omega)

theorem map_length_getD {α : Type} :
    ∀ (L : List (List α)) (i : ℕ), i < L.length →
      (L.map List.length).getD i 0 = (L.getD i []).length := by
  intro L
  induction L with
  | nil => intro i h; simp at h
  | cons lvl L' ih =>
    intro i hi
    match i with
    | 0 => simp
    | i + 1 =>
      simp only [List.map_cons, List.getD_cons_succ]
      exact ih i (by simpa using hi)

theorem boundsFromCounts_length (s : ℕ) :
    ∀ cs : List ℕ, (boundsFromCounts s cs).length = cs.length := by
  intro cs
  induction cs generalizing s with
  | nil => rfl
  | cons c cs ih => simp [boundsFromCounts, ih]

/-- Closed form of an entry of `boundsFromCounts`: level `li` starts at
the base plus the sum of the earlier counts and spans its own count. -/
theorem boundsFromCounts_getD :
    ∀ (cs : List ℕ) (s li : ℕ), li < cs.length →
      (boundsFromCounts s cs).getD li (0, 0) =
        (s + (cs.take li).sum, s + (cs.take li).sum + cs.getD li 0) := by
  intro cs
  induction cs with
  | nil => intro s li h; simp at h
  | cons c cs ih =>
    intro s li hli
    match li with
    | 0 => simp [boundsFromCounts]
    | li + 1 =>
      simp only [boundsFromCounts, List.getD_cons_succ, List.take_succ_cons,
        List.sum_cons]
      rw [ih (s + c) li (by simpa using hli)]
      have h1 : s + c + (cs.take li).sum = s + (c + (cs.take li).sum) := by omega
      rw [h1]

/-- Slicing the flattened level list at a level's start recovers that
level. -/
theorem flatten_slice {α : Type} :
    ∀ (L : List (List α)) (li : ℕ), li < L.length →
      ((L.flatten.drop
          (((L.map List.length).take li).sum)).take (L.getD li []).length) =
        L.getD li [] := by
  intro L
  induction L with
  | nil => intro li h; simp at h
  | cons lvl L' ih =>
    intro li hli
    match li with
    | 0 =>
      simp only [List.map_cons, List.take_zero, List.sum_nil, List.drop_zero,
        List.getD_cons_zero, List.flatten_cons]
      exact List.take_left lvl (L'.flatten)
    | li + 1 =>
      simp only [List.map_cons, List.take_succ_cons, List.sum_cons,
        List.getD_cons_succ, List.flatten_cons]
      rw [← List.drop_drop]
      rw [List.drop_left lvl L'.flatten]
      exact ih li (by simpa using hli)

/-- The last element of the flattened level list is the last element of
the (nonempty) last level. -/
theorem flatten_getLast {α : Type} :
    ∀ (L : List (List α)) (lst : List α), L.getLast? = some lst → lst ≠ [] →
      L.flatten.getLast? = lst.getLast? := by
  intro L
  induction L with
  | nil => intro lst h _; simp at h
  | cons lvl L' ih =>
    intro lst h hne
    cases L' with
    | nil =>
      simp only [List.getLast?_singleton, Option.some_inj] at h
      subst h
      simp
    | cons a b =>
      have h' : (a :: b).getLast? = some lst := by
        rwa [List.getLast?_cons_cons] at h
      have hflat := ih lst h' hne
      have hfne : (a :: b).flatten ≠ [] := by
        intro hc
        rw [hc] at hflat
        cases lst with
        | nil => exact hne rfl
        | cons z zs => simp [List.getLast?] at hflat
      rw [List.flatten_cons, List.getLast?_append_of_ne_nil _ hfne]
      exact hflat

theorem mul_lt_of_lt_ceilDiv {j c m : ℕ} (hm : 1 ≤ m) (h : j < ceilDiv c m) :
    j * m < c := by
  simp only [ceilDiv] at h
  have h2 := (Nat.le_div_iff_mul_le (k := m) (by omega)).mp h
  have h3 : (j + 1) * m ≤ c + m - 1 := by
    simpa [Nat.succ_eq_add_one] using h2
  have hexp : (j + 1) * m = j * m + m := by ring
  omega

/-- The internal-node invariant over the raw level list: the `j`-th node
of parent level `li + 1` carries the flat-array index of its first child
as `offset` and the union of its at-most-`m` children's boxes as box. -/
theorem built_levels_spec (m : ℕ) (hm : 2 ≤ m) (nodes : List NodeItem)
    (li j : ℕ)
    (hli : li + 1 < (treeLevels m 0 nodes).length)
    (hj : j < ((treeLevels m 0 nodes).getD (li + 1) []).length) :
    ((treeLevels m 0 nodes).flatten.getD
        (((((treeLevels m 0 nodes).map List.length).take (li + 1)).sum) + j)
        default).offset =
      ((((treeLevels m 0 nodes).map List.length).take li).sum) + j * m ∧
    ((treeLevels m 0 nodes).flatten.getD
        (((((treeLevels m 0 nodes).map List.length).take (li + 1)).sum) + j)
        default).box =
      leavesUnion (((treeLevels m 0 nodes).flatten.drop
          (((((treeLevels m 0 nodes).map List.length).take li).sum) + j * m)).take
        (min m (((treeLevels m 0 nodes).getD li []).length - j * m))) := by
  have hmax : max 2 m = m := by omega
  have hPdef : (treeLevels m 0 nodes).getD (li + 1) [] =
      buildParents m ((((treeLevels m 0 nodes).map List.length).take li).sum)
        ((treeLevels m 0 nodes).getD li []) := by
    have hp := treeLevels_parent m 0 nodes li hli
    rw [hmax] at hp
    simpa using hp
  have hPlen : ((treeLevels m 0 nodes).getD (li + 1) []).length =
      ceilDiv ((treeLevels m 0 nodes).getD li []).length m := by
    rw [hPdef, buildParents_length m (by omega)]
  have hslice := flatten_slice (treeLevels m 0 nodes) (li + 1) hli
  have hpidx : (treeLevels m 0 nodes).flatten.getD
      (((((treeLevels m 0 nodes).map List.length).take (li + 1)).sum) + j)
      default = ((treeLevels m 0 nodes).getD (li + 1) []).getD j default := by
    conv_rhs => rw [← hslice]
    rw [getD_take _ _ _ _ hj, getD_drop]
  have hpar : ((treeLevels m 0 nodes).getD (li + 1) []).getD j default =
      groupParent (((((treeLevels m 0 nodes).map List.length).take li).sum) + j * m)
        ((((treeLevels m 0 nodes).getD li []).drop (j * m)).take m) := by
    rw [hPdef]
    refine buildParents_getD m (by omega) _ _ j ?_
    rw [buildParents_length m (by omega), ← hPlen]
    exact hj
  have hjm : j * m < ((treeLevels m 0 nodes).getD li []).length :=
    mul_lt_of_lt_ceilDiv (by omega) (hPlen ▸ hj)
  have hchunk_ne : (((treeLevels m 0 nodes).getD li []).drop (j * m)).take m ≠ [] := by
    apply List.ne_nil_of_length_pos
    simp only [List.length_take, List.length_drop]
    omega
  have hsliceC := flatten_slice (treeLevels m 0 nodes) li (by omega)
  have hchunk_eq : (((treeLevels m 0 nodes).getD li []).drop (j * m)).take m =
      ((treeLevels m 0 nodes).flatten.drop
        (((((treeLevels m 0 nodes).map List.length).take li).sum) + j * m)).take
      (min m (((treeLevels m 0 nodes).getD li []).length - j * m)) := by
    conv_lhs => rw [← hsliceC]
    rw [List.drop_take, List.take_take, List.drop_drop]
  refine ⟨?_, ?_⟩
  · rw [hpidx, hpar, groupParent_offset]
  · rw [hpidx, hpar, groupParent_box _ hchunk_ne, hchunk_eq]

/-- The root of the built flat array is its last record, and its box is
the union of all the leaf boxes. -/
theorem built_root_spec (m : ℕ) (nodes : List NodeItem) (h : nodes ≠ []) :
    ∃ r : NodeItem, (treeLevels m 0 nodes).flatten.getLast? = some r ∧
      r.box = leavesUnion nodes := by
  obtain ⟨r, hr, hbox⟩ := treeLevels_getLast m 0 nodes h
  refine ⟨r, ?_, hbox⟩
  rw [flatten_getLast _ _ hr (by simp)]
  simp

/-- C3: in every built tree, every internal node's bounding box in the
flat node array is the exact union (min/max fold) of the run of its
at-most-`nodeSize` contiguous children, which starts at the flat-array
index stored in the node's `offset` (the child-level start plus `j`
groups of `nodeSize`) and is capped by the end of the child level; and
the root node — the last record of the array — has the box returned by
`getExtent`, which is the union of all the leaf boxes. -/
theorem internal_union_extent (nodes : List NodeItem) (ext : NodeItem)
    (nodeSize : ℕ) (h : nodes ≠ []) :
    let t := PackedRTree.build nodes ext nodeSize
    (∀ li j : ℕ,
      li + 1 < t.levelBounds.length →
      j < (t.levelBounds.getD (li + 1) (0, 0)).2 -
          (t.levelBounds.getD (li + 1) (0, 0)).1 →
      (t.nodeItems.getD ((t.levelBounds.getD (li + 1) (0, 0)).1 + j)
          default).offset =
        (t.levelBounds.getD li (0, 0)).1 + j * t.nodeSize ∧
      (t.nodeItems.getD ((t.levelBounds.getD (li + 1) (0, 0)).1 + j)
          default).box =
        leavesUnion ((t.nodeItems.drop
            ((t.nodeItems.getD ((t.levelBounds.getD (li + 1) (0, 0)).1 + j)
              default).offset)).take
          (min t.nodeSize ((t.levelBounds.getD li (0, 0)).2 -
            ((t.nodeItems.getD ((t.levelBounds.getD (li + 1) (0, 0)).1 + j)
              default).offset))))) ∧
    ∃ root : NodeItem,
      t.nodeItems.getLast? = some root ∧
      root.box = leavesUnion nodes ∧
      t.getExtent = root := by
  intro t
  have hm : 2 ≤ clampNodeSize nodeSize := le_max_left _ _
  have harr : t.nodeItems = (treeLevels (clampNodeSize nodeSize) 0 nodes).flatten :=
    rfl
  have hns : t.nodeSize = clampNodeSize nodeSize := rfl
  have hne0 : nodes.length ≠ 0 := fun hc => h (List.length_eq_zero.mp hc)
  have hcounts : levelCounts nodes.length nodeSize =
      (treeLevels (clampNodeSize nodeSize) 0 nodes).map List.length := by
    rw [levelCounts, if_neg hne0]
    exact (treeLevels_map_length _ _ _ h).symm
  have hbounds : t.levelBounds =
      boundsFromCounts 0
        ((treeLevels (clampNodeSize nodeSize) 0 nodes).map List.length) := by
    show PackedRTree.generateLevelBounds nodes.length nodeSize = _
    rw [PackedRTree.generateLevelBounds, hcounts]
  refine ⟨?_, ?_⟩
  · intro li j hli hj
    rw [hbounds] at hli hj
    have hliL : li + 1 < (treeLevels (clampNodeSize nodeSize) 0 nodes).length := by
      rw [boundsFromCounts_length, List.length_map] at hli
      exact hli
    have hlic : li + 1 <
        ((treeLevels (clampNodeSize nodeSize) 0 nodes).map List.length).length := by
      rw [List.length_map]
      exact hliL
    have hbp1 := boundsFromCounts_getD
      ((treeLevels (clampNodeSize nodeSize) 0 nodes).map List.length) 0 (li + 1)
      hlic
    have hbp0 := boundsFromCounts_getD
      ((treeLevels (clampNodeSize nodeSize) 0 nodes).map List.length) 0 li
      (by omega)
    simp only [Nat.zero_add] at hbp1 hbp0
    rw [hbp1] at hj
    simp only at hj
    have hj2 : j <
        ((treeLevels (clampNodeSize nodeSize) 0 nodes).map List.length).getD
          (li + 1) 0 := by
      omega
    have hcP := map_length_getD (treeLevels (clampNodeSize nodeSize) 0 nodes)
      (li + 1) hliL
    have hcC := map_length_getD (treeLevels (clampNodeSize nodeSize) 0 nodes)
      li (by omega)
    have hj3 : j < ((treeLevels (clampNodeSize nodeSize) 0 nodes).getD
        (li + 1) []).length := by
      rw [← hcP]
      exact hj2
    obtain ⟨hoff, hbox⟩ := built_levels_spec (clampNodeSize nodeSize) hm nodes
      li j hliL hj3
    rw [hbounds, harr, hns, hbp1, hbp0]
    refine ⟨hoff, ?_⟩
    rw [hoff]
    have harith : ((((treeLevels (clampNodeSize nodeSize) 0 nodes).map
          List.length).take li).sum +
          ((treeLevels (clampNodeSize nodeSize) 0 nodes).map List.length).getD
            li 0) -
        ((((treeLevels (clampNodeSize nodeSize) 0 nodes).map
          List.length).take li).sum + j * clampNodeSize nodeSize) =
        ((treeLevels (clampNodeSize nodeSize) 0 nodes).getD li []).length -
          j * clampNodeSize nodeSize := by
      rw [hcC]
      omega
    rw [harith]
    exact hbox
  · obtain ⟨r, hr, hbox⟩ := built_root_spec (clampNodeSize nodeSize) nodes h
    refine ⟨r, ?_, hbox, ?_⟩
    · rw [harr]
      exact hr
    · show (((treeLevels (clampNodeSize nodeSize) 0 nodes).flatten.getLast?).getD
        ext) = r
      rw [hr]
      rfl

/-- Witness for C3 at three leaves and branching factor 2. -/
theorem internal_union_extent_witness :
    ([(⟨0, 0, 0, 0, 100⟩ : NodeItem), ⟨10, 10, 10, 10, 101⟩,
        ⟨20, 20, 20, 20, 102⟩] ≠ []) ∧
    (let t := PackedRTree.build
        [(⟨0, 0, 0, 0, 100⟩ : NodeItem), ⟨10, 10, 10, 10, 101⟩,
          ⟨20, 20, 20, 20, 102⟩] (NodeItem.create 0) 2;
      (∀ li j : ℕ,
        li + 1 < t.levelBounds.length →
        j < (t.levelBounds.getD (li + 1) (0, 0)).2 -
            (t.levelBounds.getD (li + 1) (0, 0)).1 →
        (t.nodeItems.getD ((t.levelBounds.getD (li + 1) (0, 0)).1 + j)
            default).offset =
          (t.levelBounds.getD li (0, 0)).1 + j * t.nodeSize ∧
        (t.nodeItems.getD ((t.levelBounds.getD (li + 1) (0, 0)).1 + j)
            default).box =
          leavesUnion ((t.nodeItems.drop
              ((t.nodeItems.getD ((t.levelBounds.getD (li + 1) (0, 0)).1 + j)
                default).offset)).take
            (min t.nodeSize ((t.levelBounds.getD li (0, 0)).2 -
              ((t.nodeItems.getD ((t.levelBounds.getD (li + 1) (0, 0)).1 + j)
                default).offset))))) ∧
      ∃ root : NodeItem,
        t.nodeItems.getLast? = some root ∧
        root.box = leavesUnion
          [(⟨0, 0, 0, 0, 100⟩ : NodeItem), ⟨10, 10, 10, 10, 101⟩,
            ⟨20, 20, 20, 20, 102⟩] ∧
        t.getExtent = root) :=
  ⟨by simp, internal_union_extent
    [(⟨0, 0, 0, 0, 100⟩ : NodeItem), ⟨10, 10, 10, 10, 101⟩,
      ⟨20, 20, 20, 20, 102⟩] (NodeItem.create 0) 2 (by simp)⟩

/-! Facts about the level-count recurrence. -/

theorem levelCountsAux_head (ns n : ℕ) : (levelCountsAux ns n).head? = some n := by
  by_cases h : n ≤ 1
  · rw [levelCountsAux_base h]; rfl
  · rw [levelCountsAux_step h]; rfl

theorem levelCountsAux_ne_nil (ns n : ℕ) : levelCountsAux ns n ≠ [] := by
  by_cases h : n ≤ 1
  · rw [levelCountsAux_base h]; simp
  · rw [levelCountsAux_step h]; simp

theorem levelCountsAux_getLast (ns : ℕ) :
    ∀ n, 1 ≤ n → (levelCountsAux ns n).getLast? = some 1 := by
  intro n
  induction n using levelCountsAux.induct ns with
  | case1 n h =>
    intro h1
    rw [levelCountsAux_base h]
    have : n = 1 := by omega
    simp [this]
  | case2 n h ih =>
    intro _
    rw [levelCountsAux_step h]
    have hpos : 1 ≤ ceilDiv n (max 2 ns) := ceilDiv_pos (by omega) (by omega)
    rw [List.getLast?_cons, ih hpos]
    rfl

theorem levelCountsAux_chain_ceil (ns : ℕ) :
    ∀ n, List.Chain' (fun a b => b = ceilDiv a (max 2 ns)) (levelCountsAux ns n) := by
  intro n
  induction n using levelCountsAux.induct ns with
  | case1 n h => rw [levelCountsAux_base h]; simp
  | case2 n h ih =>
    rw [levelCountsAux_step h]
    rw [List.chain'_cons']
    refine ⟨?_, ih⟩
    intro b hb
    rw [levelCountsAux_head] at hb
    exact (Option.some_inj.mp hb).symm

theorem levelCountsAux_chain_lt (ns : ℕ) :
    ∀ n, List.Chain' (fun a b => b < a) (levelCountsAux ns n) := by
  intro n
  induction n using levelCountsAux.induct ns with
  | case1 n h => rw [levelCountsAux_base h]; simp
  | case2 n h ih =>
    rw [levelCountsAux_step h]
    rw [List.chain'_cons']
    refine ⟨?_, ih⟩
    intro b hb
    rw [levelCountsAux_head] at hb
    rw [← Option.some_inj.mp hb]
    exact ceilDiv_lt (by omega) (by omega)

theorem levelCountsAux_all_pos (ns : ℕ) :
    ∀ n, 1 ≤ n → ∀ c ∈ levelCountsAux ns n, 1 ≤ c := by
  intro n
  induction n using levelCountsAux.induct ns with
  | case1 n h =>
    intro h1 c hc
    rw [levelCountsAux_base h] at hc
    simp at hc
    omega
  | case2 n h ih =>
    intro _ c hc
    rw [levelCountsAux_step h] at hc
    rcases List.mem_cons.mp hc with hc | hc
    · omega
    · exact ih (ceilDiv_pos (by omega) (by omega)) c hc

/-! Facts about `boundsFromCounts`. -/

theorem boundsFromCounts_map_len (s : ℕ) (cs : List ℕ) :
    (boundsFromCounts s cs).map (fun p => p.2 - p.1) = cs := by
  induction cs generalizing s with
  | nil => rfl
  | cons c cs ih => simp [boundsFromCounts, ih]

theorem boundsFromCounts_head (s : ℕ) {cs : List ℕ} (h : cs ≠ []) :
    ((boundsFromCounts s cs).head?).map Prod.fst = some s := by
  cases cs with
  | nil => exact absurd rfl h
  | cons c cs => rfl

theorem boundsFromCounts_chain (s : ℕ) (cs : List ℕ) :
    List.Chain' (fun p q => q.1 = p.2) (boundsFromCounts s cs) := by
  induction cs generalizing s with
  | nil => simp [boundsFromCounts]
  | cons c cs ih =>
    simp only [boundsFromCounts]
    rw [List.chain'_cons']
    refine ⟨?_, ih (s + c)⟩
    intro q hq
    cases cs with
    | nil => simp [boundsFromCounts] at hq
    | cons d ds =>
      have hq2 : (s + c, s + c + d) = q := by
        simpa [boundsFromCounts] using hq
      rw [← hq2]

/-- The clamped branching factor is at least 2, so the inner defensive
`max 2` of `levelCountsAux` is invisible for clamped arguments. -/
theorem max_two_clampNodeSize (nodeSize : ℕ) :
    max 2 (clampNodeSize nodeSize) = clampNodeSize nodeSize := by
  simp only [clampNodeSize]
  omega

/-- C2 (amended: `numItems ≥ 1`, and the divisor of the count recurrence
is the branching factor after the clamp of spec 7): `generateLevelBounds`
returns the consecutive `(start, end)` ranges, leaf level first, starting
at index 0, whose per-level widths are the level counts; the counts start
at `numItems`, each next count is the ceiling of the previous count
divided by the clamped branching factor, the counts are strictly
decreasing and terminate at exactly 1 (the root); and `size` equals the
sum of all level counts times 40 bytes. -/
theorem generateLevelBounds_size_spec (numItems nodeSize : ℕ) (h : 1 ≤ numItems) :
    (levelCounts numItems nodeSize).head? = some numItems ∧
    List.Chain' (fun a b => b = ceilDiv a (clampNodeSize nodeSize))
      (levelCounts numItems nodeSize) ∧
    List.Chain' (fun a b => b < a) (levelCounts numItems nodeSize) ∧
    (levelCounts numItems nodeSize).getLast? = some 1 ∧
    (PackedRTree.generateLevelBounds numItems nodeSize).map (fun p => p.2 - p.1) =
      levelCounts numItems nodeSize ∧
    ((PackedRTree.generateLevelBounds numItems nodeSize).head?).map Prod.fst = some 0 ∧
    List.Chain' (fun p q => q.1 = p.2) (PackedRTree.generateLevelBounds numItems nodeSize) ∧
    PackedRTree.size numItems nodeSize = (levelCounts numItems nodeSize).sum * 40 := by
  have hne : numItems ≠ 0 := by omega
  have hcounts : levelCounts numItems nodeSize =
      levelCountsAux (clampNodeSize nodeSize) numItems := by
    simp [levelCounts, hne]
  refine ⟨?_, ?_, ?_, ?_, ?_, ?_, ?_, rfl⟩
  · rw [hcounts]; exact levelCountsAux_head _ _
  · rw [hcounts]
    have := levelCountsAux_chain_ceil (clampNodeSize nodeSize) numItems
    rwa [max_two_clampNodeSize] at this
  · rw [hcounts]; exact levelCountsAux_chain_lt _ _
  · rw [hcounts]; exact levelCountsAux_getLast _ _ h
  · exact boundsFromCounts_map_len 0 _
  · refine boundsFromCounts_head 0 ?_
    rw [hcounts]; exact levelCountsAux_ne_nil _ _
  · exact boundsFromCounts_chain 0 _

/-- Witness for C2 at `numItems = 5`, `nodeSize = 2`. -/
theorem generateLevelBounds_size_spec_witness :
    1 ≤ 5 ∧
    ((levelCounts 5 2).head? = some 5 ∧
    List.Chain' (fun a b => b = ceilDiv a (clampNodeSize 2)) (levelCounts 5 2) ∧
    List.Chain' (fun a b => b < a) (levelCounts 5 2) ∧
    (levelCounts 5 2).getLast? = some 1 ∧
    (PackedRTree.generateLevelBounds 5 2).map (fun p => p.2 - p.1) = levelCounts 5 2 ∧
    ((PackedRTree.generateLevelBounds 5 2).head?).map Prod.fst = some 0 ∧
    List.Chain' (fun p q => q.1 = p.2) (PackedRTree.generateLevelBounds 5 2) ∧
    PackedRTree.size 5 2 = (levelCounts 5 2).sum * 40) :=
  ⟨by omega, generateLevelBounds_size_spec 5 2 (by omega)⟩

/-- C2 counterexample: at `numItems = 0` there are no levels at all, so
the level counts do not terminate at a level of count 1 and there is no
root range, contradicting the claim's universal quantification over
`numItems`. -/
theorem generateLevelBounds_zero_items :
    levelCounts 0 16 = [] ∧
    (levelCounts 0 16).getLast? ≠ some 1 ∧
    PackedRTree.generateLevelBounds 0 16 = [] := by
  refine ⟨rfl, ?_, rfl⟩
  intro hc
  simp [levelCounts] at hc

/-- C4: `intersects` is the exact not-disjoint test of spec 4.1, with
closed-interval semantics: boxes that merely touch on a boundary
intersect. -/
theorem intersects_closed_iff (a r : NodeItem) :
    (a.intersects r = true ↔
      ¬(r.minX > a.maxX ∨ r.maxX < a.minX ∨ r.minY > a.maxY ∨ r.maxY < a.minY)) ∧
    (a.intersects r = true ↔
      (r.minX ≤ a.maxX ∧ a.minX ≤ r.maxX ∧ r.minY ≤ a.maxY ∧ a.minY ≤ r.maxY)) := by
  constructor
  · simp [NodeItem.intersects, not_or]
    tauto
  · simp [NodeItem.intersects, not_or, not_lt]
    tauto

/-- C9: the `calcExtent` template is exactly the left fold of `expand`
over the items' boxes starting from `NodeItem::create(0)`, and on the
empty collection it returns that initial element rather than failing. -/
theorem calcExtent_accumulate :
    calcExtent [] = NodeItem.create 0 ∧
    ∀ items : List Item,
      calcExtent items =
        (items.map Item.nodeItem).foldl NodeItem.expand (NodeItem.create 0) := by
  refine ⟨rfl, fun items => ?_⟩
  simp [calcExtent, List.foldl_map]

/-- C10: `sum(a, b)` and `a.expand(b)` change only the four box
coordinates (to the component-wise min/max union); the resulting `offset`
field is exactly `a`'s offset — the second operand's offset never leaks
into the union. -/
theorem sum_expand_offset_frame (a b : NodeItem) :
    NodeItem.sum a b = a.expand b ∧
    a.expand b =
      { minX := min a.minX b.minX
        minY := min a.minY b.minY
        maxX := max a.maxX b.maxX
        maxY := max a.maxY b.maxY
        offset := a.offset } ∧
    (NodeItem.sum a b).offset = a.offset ∧
    (a.expand b).offset = a.offset :=
  ⟨rfl, rfl, rfl, rfl⟩

end FlatGeobuf
